import Mathlib

/-!
Verification of the squiggle probabilistic-language engine against its
specification. Each section embeds one part of the source code as Lean
definitions and proves or refutes the spec's claims about it.
-/

set_option linter.unusedVariables false

instance {E A : Type} [DecidableEq E] [DecidableEq A] :
    DecidableEq (Except E A) := fun a b =>
  match a, b with
  | .error e, .error f =>
      if h : e = f then .isTrue (congrArg Except.error h)
      else .isFalse fun hEq => h (Except.error.inj hEq)
  | .ok a, .ok b =>
      if h : a = b then .isTrue (congrArg Except.ok h)
      else .isFalse fun hEq => h (Except.ok.inj hEq)
  | .error _, .ok _ => .isFalse fun hEq => Except.noConfusion hEq
  | .ok _, .error _ => .isFalse fun hEq => Except.noConfusion hEq

namespace MixedBuilder

/-! ### Mixed distribution builder

Embedded from the ReScript `build` function (`MixedShapeBuilder`-style
module): the `assumption` variant type, the `assumptions` record and the
five-branch `switch` with a catch-all returning `None`.
Masses are modelled as rationals.
-/

inductive Assumption where
  | ADDS_TO_1
  | ADDS_TO_CORRECT_PROBABILITY
  deriving DecidableEq, Repr

structure Assumptions where
  continuous : Assumption
  discrete : Assumption
  discreteProbabilityMass : Option ℚ
  deriving DecidableEq, Repr

/-- An xy-shape: paired coordinate lists, as in the source's shape types. -/
structure XYShape where
  xs : List ℚ
  ys : List ℚ
  deriving DecidableEq, Repr

/-- Modelled from the spec: `DistFunctor.Discrete.T.Integral.sum` is absent
from the sources; the spec describes it as "integrating the discrete part's
raw mass (before normalization)", i.e. the sum of the point masses. -/
def discreteIntegralSum (t : XYShape) : ℚ :=
  t.ys.sum

/-- Modelled from the spec: `DistFunctor.Discrete.T.scaleToIntegralSum` is
absent from the sources; the spec describes it as "rescale discrete part to
integrate to 1", i.e. multiply every mass by `intendedSum / currentSum`. -/
def scaleToIntegralSum (intendedSum : ℚ) (t : XYShape) : XYShape :=
  ⟨t.xs, t.ys.map (fun y => y * (intendedSum / discreteIntegralSum t))⟩

/-- The mixed composite: continuous part, discrete part and the explicit
discrete-probability-mass fraction. -/
structure MixedShape where
  continuous : XYShape
  discrete : XYShape
  discreteProbabilityMassFraction : ℚ
  deriving DecidableEq, Repr

/-- Modelled from the spec: `DistFunctor.Mixed.make` is absent from the
sources; it packages the three arguments into the mixed composite. -/
def mixedMake (continuous discrete : XYShape)
    (discreteProbabilityMassFraction : ℚ) : MixedShape :=
  ⟨continuous, discrete, discreteProbabilityMassFraction⟩

/-- Direct translation of the ReScript `build` function's `switch` on the
`assumptions` record. -/
def build (continuous discrete : XYShape) (assumptions : Assumptions) :
    Option MixedShape :=
  match assumptions with
  | ⟨.ADDS_TO_CORRECT_PROBABILITY, .ADDS_TO_CORRECT_PROBABILITY, some r⟩ =>
      some (mixedMake continuous discrete r)
  | ⟨.ADDS_TO_1, .ADDS_TO_1, some r⟩ =>
      some (mixedMake continuous discrete r)
  | ⟨.ADDS_TO_1, .ADDS_TO_1, none⟩ => none
  | ⟨.ADDS_TO_CORRECT_PROBABILITY, .ADDS_TO_1, none⟩ => none
  | ⟨.ADDS_TO_1, .ADDS_TO_CORRECT_PROBABILITY, none⟩ =>
      let discreteProbabilityMassFraction := discreteIntegralSum discrete
      let discrete2 := scaleToIntegralSum 1 discrete
      some (mixedMake continuous discrete2 discreteProbabilityMassFraction)
  | _ => none

end MixedBuilder

namespace ScaleLib

/-! ### Scale constructors

Embedded from the `Scale` stdlib module (`fr/scale.ts`-style file):
`checkMinMax` and the dict-taking definitions of `Scale.linear`,
`Scale.log`, `Scale.symlog` and `Scale.power`. A thrown `REOther` is
modelled as an `Except.error` with a constructor per throw site, carrying
the values interpolated into the message.
-/

inductive ScaleType where
  | linear
  | log
  | symlog
  | power
  deriving DecidableEq, Repr

structure Scale where
  type : ScaleType
  min : Option ℚ
  max : Option ℚ
  tickFormat : Option String
  exponent : Option ℚ
  deriving DecidableEq, Repr

/-- The two `REOther` throw sites of the Scale module:
`minMaxError a b` is "Max must be greater than min, got: min=a, max=b",
`logMinError m` is "Min must be over 0 for log scale, got: m". -/
inductive ScaleError where
  | minMaxError (min max : ℚ)
  | logMinError (min : ℚ)
  deriving DecidableEq, Repr

def checkMinMax (min max : Option ℚ) : Except ScaleError Unit :=
  match min, max with
  | some a, some b => if b ≤ a then .error (.minMaxError a b) else .ok ()
  | _, _ => .ok ()

def scaleLinear (min max : Option ℚ) (tickFormat : Option String) :
    Except ScaleError Scale :=
  (checkMinMax min max).bind fun _ =>
    .ok ⟨.linear, min, max, tickFormat, none⟩

/-- `Scale.log`: the positivity check on `min` runs before `checkMinMax`,
exactly as in the source. -/
def scaleLog (min max : Option ℚ) (tickFormat : Option String) :
    Except ScaleError Scale :=
  (match min with
    | some m =>
        if m ≤ 0 then Except.error (ScaleError.logMinError m) else Except.ok ()
    | none => Except.ok ()).bind fun _ =>
  (checkMinMax min max).bind fun _ =>
    .ok ⟨.log, min, max, tickFormat, none⟩

def scaleSymlog (min max : Option ℚ) (tickFormat : Option String) :
    Except ScaleError Scale :=
  (checkMinMax min max).bind fun _ =>
    .ok ⟨.symlog, min, max, tickFormat, none⟩

def scalePower (min max : Option ℚ) (tickFormat : Option String)
    (exponent : ℚ) : Except ScaleError Scale :=
  (checkMinMax min max).bind fun _ =>
    .ok ⟨.power, min, max, tickFormat, some exponent⟩

end ScaleLib

namespace ValueTagsM

/-! ### Value tags

Embedded from `value/valueTags.ts`: the list of valid tag keys,
`convertToValueTagsTypeName`, `omit` and `omitUsingStringKeys`. The value
payloads (`VString`, `VBool`, `Value`, `VDict`) are irrelevant to key
validation, so the tags record is parameterized over the value type. -/

inductive TagName where
  | name
  | doc
  | showAs
  | numberFormat
  | dateFormat
  | hidden
  | notebook
  | exportData
  | startOpenState
  deriving DecidableEq, Repr

def valueTagsTypeNames : List String :=
  ["name", "doc", "showAs", "numberFormat", "dateFormat", "hidden",
   "notebook", "exportData", "startOpenState"]

/-- The error message built at the `Err` site of
`convertToValueTagsTypeName`: it interpolates the offending key and the
comma-joined list of valid keys. -/
def invalidTagKeyMessage (key : String) : String :=
  "Invalid ValueTagsTypeName: " ++ key ++ ". Must be one of " ++
    String.intercalate "," valueTagsTypeNames

def convertToValueTagsTypeName (key : String) : Except String TagName :=
  if key = "name" then .ok .name
  else if key = "doc" then .ok .doc
  else if key = "showAs" then .ok .showAs
  else if key = "numberFormat" then .ok .numberFormat
  else if key = "dateFormat" then .ok .dateFormat
  else if key = "hidden" then .ok .hidden
  else if key = "notebook" then .ok .notebook
  else if key = "exportData" then .ok .exportData
  else if key = "startOpenState" then .ok .startOpenState
  else .error (invalidTagKeyMessage key)

structure ValueTagsType (V : Type) where
  name : Option String := none
  doc : Option String := none
  showAs : Option V := none
  numberFormat : Option String := none
  dateFormat : Option String := none
  hidden : Option Bool := none
  notebook : Option Bool := none
  exportData : Option V := none
  startOpenState : Option String := none

/-- `delete newValue[key]` for a single key. -/
def omitOne {V : Type} (t : ValueTagsType V) : TagName → ValueTagsType V
  | .name => { t with name := none }
  | .doc => { t with doc := none }
  | .showAs => { t with showAs := none }
  | .numberFormat => { t with numberFormat := none }
  | .dateFormat => { t with dateFormat := none }
  | .hidden => { t with hidden := none }
  | .notebook => { t with notebook := none }
  | .exportData => { t with exportData := none }
  | .startOpenState => { t with startOpenState := none }

/-- `ValueTags.omit` (renamed: `omit` is a Lean keyword): copy the record
and delete each listed key. -/
def omitTags {V : Type} (t : ValueTagsType V) (keys : List TagName) :
    ValueTagsType V :=
  keys.foldl omitOne t

/-- Modelled from the spec: `mergeMany` of `utility/result` is absent from
the sources; it combines a list of results into a result of the list of
values, failing when any element failed. -/
def mergeMany {E A : Type} : List (Except E A) → Except E (List A)
  | [] => .ok []
  | r :: rest => r.bind fun a => (mergeMany rest).map fun tl => a :: tl

/-- `ValueTags.omitUsingStringKeys`: convert every string key, merge the
results, and `fmap` the typed `omit` over them. -/
def omitUsingStringKeys {V : Type} (t : ValueTagsType V)
    (keys : List String) : Except String (ValueTagsType V) :=
  (mergeMany (keys.map convertToValueTagsTypeName)).map fun args =>
    omitTags t args

end ValueTagsM

namespace SampleSetM

/-! ### SampleSet → PointSet conversion -/

/-- The error value the repository's test
(`__tests__/GenericDist/GenericOperation__Test.res`) expects from
converting a too-small sample set. -/
def conversionErrorMessage : String := "Converting sampleSet to pointSet failed"

/-- Modelled from the spec: the kernel-density-estimation minimum sample
count. The conversion implementation is absent from the sources; the spec
documents the cutoff as a heuristic, and the repository's test expects
failure at 4 samples and success at 11, so the minimum is modelled as 5. -/
def kdeMinSamples : Nat := 5

/-- Modelled from the spec: the SampleSet → PointSet conversion is absent
from the sources. Below the minimum sample count it fails with the
descriptive error the repository's test expects; otherwise it hands the
samples to the kernel-density estimate. -/
def toPointSet (samples : List ℚ) : Except String (List ℚ) :=
  if samples.length < kdeMinSamples then .error conversionErrorMessage
  else .ok samples

/-- The 4-sample input of the test
"on sample set distribution with under 4 points". -/
def toPointSetTestSamplesSmall : List ℚ := [0, 1, 2, 3]

/-- The 11-sample input of the test "on sample set distribution". -/
def toPointSetTestSamplesLarge : List ℚ :=
  [0, 1, 2, 3, 4, 5, 6, 7, 8, 9, 10]

end SampleSetM

namespace ImportLoader

/-! ### Recursive import loading

Embedded from `SqProject.loadImportsRecursively` and
`SqProject.runWithImports`. Sources are identified by naturals and the
project's import lists (what `parseImports` + `getImportIds` produce for
each source) by a function `imports : Nat → List Nat`. The embedding is
faithful to the control flow of the source: each call to
`loadImportsRecursively` allocates a fresh `visited` set, its local
`inner` closure is invoked exactly once (on the initial source), and the
loop over imports re-enters `loadImportsRecursively` itself — so the
`visited` set consulted by `inner` is always the one just allocated.
A fuel parameter makes the Lean function total; a run that exhausts every
fuel bound corresponds to a non-terminating run of the original. -/

inductive LoadError where
  | cyclicImport (sourceName : Nat)
  | fuelExhausted
  deriving DecidableEq, Repr

/-- The `for (const newImportId of rImportIds.value)` loop body. -/
def goImports (load : Nat → Except LoadError Unit) :
    List Nat → Except LoadError Unit
  | [] => .ok ()
  | i :: rest => (load i).bind fun _ => goImports load rest

def loadImportsRecursively (imports : Nat → List Nat) :
    Nat → Nat → Except LoadError Unit
  | 0, _ => .error .fuelExhausted
  | fuel + 1, sourceName =>
      let visited : List Nat := []
      if sourceName ∈ visited then .error (.cyclicImport sourceName)
      else
        let visited := sourceName :: visited
        goImports (loadImportsRecursively imports fuel) (imports sourceName)

/-- `runWithImports` loads imports recursively and only then runs the
source; the run phase is abstracted since it is unreachable whenever
loading fails or diverges. -/
def runWithImports (imports : Nat → List Nat)
    (runPhase : Nat → Except LoadError Unit) (fuel : Nat) (sourceId : Nat) :
    Except LoadError Unit :=
  (loadImportsRecursively imports fuel sourceId).bind fun _ =>
    runPhase sourceId

/-- The spec's two-source cycle: source 0 imports source 1 and source 1
imports source 0. -/
def cycleGraph : Nat → List Nat
  | 0 => [1]
  | 1 => [0]
  | _ => []

end ImportLoader

namespace ProjectRun

/-! ### `runIds` — caching and error propagation

Embedded from `SqProject.runIds`: the loop over the run-order list with
its single `error` accumulator, the cached-result skip, the
`failRun(error)` short-circuit and the link-and-run step.
`ProjectItem.run`/`failRun` and the reducer are absent from the sources
and are modelled from the spec: running a source caches its evaluation
outcome (an oracle `eval`), failing a run caches the propagated error,
and an instrumentation counter records how many times each source was
actually evaluated (the spec's side-effect-counter observable). -/

structure RunState (α V E : Type) where
  result : α → Option (Except E V)
  evalCount : α → Nat

/-- `ProjectItem.failRun`: cache an error result. -/
def setResult {α V E : Type} [DecidableEq α] (s : RunState α V E) (id : α)
    (r : Except E V) : RunState α V E :=
  { s with result := fun x => if x = id then some r else s.result x }

/-- `doLinkAndRun`: evaluate the source, cache the outcome and bump the
evaluation counter. -/
def evalRun {α V E : Type} [DecidableEq α] (eval : α → Except E V)
    (s : RunState α V E) (id : α) : RunState α V E :=
  { result := fun x => if x = id then some (eval id) else s.result x
    evalCount := fun x => if x = id then s.evalCount x + 1 else s.evalCount x }

/-- `runIds`, translated branch by branch. -/
def runList {α V E : Type} [DecidableEq α] (eval : α → Except E V) :
    List α → Option E → RunState α V E → RunState α V E
  | [], _, s => s
  | id :: rest, error, s =>
      match s.result id with
      | some cached =>
          match cached with
          | .error e => runList eval rest (some e) s
          | .ok _ => runList eval rest error s
      | none =>
          match error with
          | some e => runList eval rest (some e) (setResult s id (.error e))
          | none =>
              let s1 := evalRun eval s id
              match eval id with
              | .error e => runList eval rest (some e) s1
              | .ok _ => runList eval rest none s1

/-- `run(sourceId)` = `runIds(Topology.getRunOrderFor(this, sourceId))`;
the Topology module is absent from the sources and modelled from the spec
as a run-order function. -/
def runSource {α V E : Type} [DecidableEq α] (eval : α → Except E V)
    (runOrderFor : α → List α) (sourceId : α) (s : RunState α V E) :
    RunState α V E :=
  runList eval (runOrderFor sourceId) none s

/-- A project in which nothing has been run yet. -/
def freshState (α V E : Type) : RunState α V E :=
  ⟨fun _ => none, fun _ => 0⟩

/-- Concrete topology for the propagation scenario: sources 0, 1 and 2,
where 2 depends on both 0 and 1, while 0 and 1 are independent of each
other. -/
def cDeps : Nat → List Nat
  | 2 => [0, 1]
  | _ => []

/-- Topological run order for `cDeps`. -/
def cRunOrder : Nat → List Nat
  | 2 => [0, 1, 2]
  | n => [n]

/-- Concrete evaluation outcomes: source 0 fails, everything else
succeeds. -/
def cEval : Nat → Except String Nat
  | 0 => .error "boom"
  | n => .ok n

end ProjectRun

namespace ProjectResult

/-! ### `getResult`

Embedded from `SqProject.getResult` / `getInternalResult` /
`getResultOption` and `getNeedToRunError`: a project item caches an
optional result; reading the result of a present source that has none
yields a `needToRun` error. -/

inductive SqError where
  | needToRun
  | other (msg : String)
  deriving DecidableEq, Repr

structure ProjectItem (V : Type) where
  result : Option (Except SqError V)

structure SqProject (V : Type) where
  items : List (String × ProjectItem V)

/-- `this.items.get(sourceId)` (the claim concerns present sources, so the
throwing `getItem` wrapper is not needed). -/
def lookupItem {V : Type} (p : SqProject V) (sourceId : String) :
    Option (ProjectItem V) :=
  (p.items.find? fun kv => kv.1 == sourceId).map Prod.snd

/-- `getInternalResult`: `result ?? Err(getNeedToRunError())`. -/
def getInternalResult {V : Type} (item : ProjectItem V) : Except SqError V :=
  match item.result with
  | some r => r
  | none => .error .needToRun

structure SqValueLocation where
  sourceId : String
  root : String
  deriving DecidableEq, Repr

/-- `wrapValue` with a `{root: "result"}` location. -/
structure SqValue (V : Type) where
  value : V
  location : SqValueLocation

/-- `getResult`: `fmap` the wrapping over the internal result. -/
def getResult {V : Type} (p : SqProject V) (sourceId : String) :
    Option (Except SqError (SqValue V)) :=
  (lookupItem p sourceId).map fun item =>
    (getInternalResult item).map fun v =>
      SqValue.mk v ⟨sourceId, "result"⟩

end ProjectResult

/-! ## Theorems -/

theorem sum_map_mul_const (l : List ℚ) (c : ℚ) :
    (l.map (fun y => y * c)).sum = l.sum * c := by
  induction l with
  | nil => simp
  | cons a t ih => simp [ih]; ring

/-- C1 counterexample: for a zero-mass discrete component (here the empty
shape) the builder with continuous=ADDS_TO_1,
discrete=ADDS_TO_CORRECT_PROBABILITY and no supplied mass still returns
Some, but the rebuilt discrete part integrates to 0, not 1, so the claim's
"rescaled so that it integrates to 1" fails. -/
theorem mixedBuilder_a1_acp_zero_mass_counterexample :
    MixedBuilder.build ⟨[], []⟩ ⟨[], []⟩
        ⟨.ADDS_TO_1, .ADDS_TO_CORRECT_PROBABILITY, none⟩ =
      some (MixedBuilder.mixedMake ⟨[], []⟩ ⟨[], []⟩ 0) ∧
    MixedBuilder.discreteIntegralSum ⟨([] : List ℚ), ([] : List ℚ)⟩ ≠ 1 := by
  refine ⟨rfl, ?_⟩
  norm_num [MixedBuilder.discreteIntegralSum]

/-- C1 (amended): for every continuous and discrete component whose raw
discrete mass is nonzero, the builder with continuous=ADDS_TO_1,
discrete=ADDS_TO_CORRECT_PROBABILITY and no supplied mass returns Some
mixed shape whose fraction is the raw (pre-normalization) integral of the
discrete part, and whose rebuilt discrete part integrates to exactly 1. -/
theorem mixedBuilder_a1_acp_fraction_and_rescale
    (continuous discrete : MixedBuilder.XYShape)
    (h : MixedBuilder.discreteIntegralSum discrete ≠ 0) :
    MixedBuilder.build continuous discrete
        ⟨.ADDS_TO_1, .ADDS_TO_CORRECT_PROBABILITY, none⟩ =
      some (MixedBuilder.mixedMake continuous
        (MixedBuilder.scaleToIntegralSum 1 discrete)
        (MixedBuilder.discreteIntegralSum discrete)) ∧
    MixedBuilder.discreteIntegralSum
        (MixedBuilder.scaleToIntegralSum 1 discrete) = 1 := by
  refine ⟨rfl, ?_⟩
  simp only [MixedBuilder.discreteIntegralSum, MixedBuilder.scaleToIntegralSum]
  rw [sum_map_mul_const]
  rw [mul_one_div]
  exact div_self h

/-- Witness for C1's amended theorem at a one-point discrete shape of mass
one half. -/
theorem mixedBuilder_a1_acp_fraction_and_rescale_witness :
    MixedBuilder.discreteIntegralSum ⟨[0], [1/2]⟩ ≠ 0 ∧
    (MixedBuilder.build ⟨[], []⟩ ⟨[0], [1/2]⟩
        ⟨.ADDS_TO_1, .ADDS_TO_CORRECT_PROBABILITY, none⟩ =
      some (MixedBuilder.mixedMake ⟨[], []⟩
        (MixedBuilder.scaleToIntegralSum 1 ⟨[0], [1/2]⟩)
        (MixedBuilder.discreteIntegralSum ⟨[0], [1/2]⟩)) ∧
    MixedBuilder.discreteIntegralSum
        (MixedBuilder.scaleToIntegralSum 1 ⟨[0], [1/2]⟩) = 1) := by
  have h : MixedBuilder.discreteIntegralSum ⟨[0], [1/2]⟩ ≠ 0 := by
    norm_num [MixedBuilder.discreteIntegralSum]
  exact ⟨h, mixedBuilder_a1_acp_fraction_and_rescale ⟨[], []⟩ ⟨[0], [1/2]⟩ h⟩

/-- C2: the builder returns none exactly for ADDS_TO_1/ADDS_TO_1 with no
mass, ADDS_TO_CORRECT_PROBABILITY/ADDS_TO_1 with no mass, and the three
assumption combinations outside the decision table
(CORRECT_PROBABILITY/CORRECT_PROBABILITY with no mass and the two mixed
assumption pairs with a supplied mass). -/
theorem mixedBuilder_none_iff
    (continuous discrete : MixedBuilder.XYShape)
    (a : MixedBuilder.Assumptions) :
    MixedBuilder.build continuous discrete a = none ↔
      (a = ⟨.ADDS_TO_1, .ADDS_TO_1, none⟩ ∨
       a = ⟨.ADDS_TO_CORRECT_PROBABILITY, .ADDS_TO_1, none⟩ ∨
       a = ⟨.ADDS_TO_CORRECT_PROBABILITY, .ADDS_TO_CORRECT_PROBABILITY,
             none⟩ ∨
       (a.continuous = .ADDS_TO_1 ∧
         a.discrete = .ADDS_TO_CORRECT_PROBABILITY ∧
         a.discreteProbabilityMass ≠ none) ∨
       (a.continuous = .ADDS_TO_CORRECT_PROBABILITY ∧
         a.discrete = .ADDS_TO_1 ∧
         a.discreteProbabilityMass ≠ none)) := by
  obtain ⟨c, d, m⟩ := a
  cases c <;> cases d <;> cases m <;> simp [MixedBuilder.build]

/-- C6 counterexample: the repository's own test feeds the 4-sample set
[0,1,2,3] to toPointSet and expects the failure value, so a sample count
at the claim's documented threshold of 4 does not succeed. -/
theorem toPointSet_four_samples_fails :
    SampleSetM.toPointSetTestSamplesSmall.length = 4 ∧
    SampleSetM.toPointSet SampleSetM.toPointSetTestSamplesSmall =
      .error SampleSetM.conversionErrorMessage := by
  exact ⟨rfl, rfl⟩

/-- C6 (amended): the SampleSet → PointSet conversion requires a minimum
sample count strictly greater than 4: with at most 4 samples it fails with
the descriptive error the repository's test expects, and with at least 5
samples it succeeds. -/
theorem toPointSet_threshold (samples : List ℚ) :
    (samples.length ≤ 4 →
      SampleSetM.toPointSet samples =
        .error SampleSetM.conversionErrorMessage) ∧
    (5 ≤ samples.length →
      SampleSetM.toPointSet samples = .ok samples) := by
  constructor
  · intro h
    simp only [SampleSetM.toPointSet, SampleSetM.kdeMinSamples]
    rw [if_pos (by omega)]
  · intro h
    simp only [SampleSetM.toPointSet, SampleSetM.kdeMinSamples]
    rw [if_neg (by omega)]

/-- Witness for C6's amended theorem at the two sample sets of the
repository's tests. -/
theorem toPointSet_threshold_witness :
    (SampleSetM.toPointSetTestSamplesSmall.length ≤ 4 ∧
      SampleSetM.toPointSet SampleSetM.toPointSetTestSamplesSmall =
        .error SampleSetM.conversionErrorMessage) ∧
    (5 ≤ SampleSetM.toPointSetTestSamplesLarge.length ∧
      SampleSetM.toPointSet SampleSetM.toPointSetTestSamplesLarge =
        .ok SampleSetM.toPointSetTestSamplesLarge) := by
  have h1 : SampleSetM.toPointSetTestSamplesSmall.length ≤ 4 := by decide
  have h2 : 5 ≤ SampleSetM.toPointSetTestSamplesLarge.length := by decide
  exact ⟨⟨h1, (toPointSet_threshold _).1 h1⟩,
         ⟨h2, (toPointSet_threshold _).2 h2⟩⟩

/-- C7: Scale.log called with a supplied min ≤ 0 fails with the log-domain
error carrying that min (the spec's DomainError for log scales), and no
Scale value is constructed. -/
theorem scaleLog_nonpositive_min_fails (m : ℚ) (maxo : Option ℚ)
    (tickFormat : Option String) (h : m ≤ 0) :
    ScaleLib.scaleLog (some m) maxo tickFormat =
      .error (.logMinError m) := by
  simp only [ScaleLib.scaleLog]
  rw [if_pos h]
  rfl

/-- Witness for C7 at the spec's scenario Scale.log with min = -5. -/
theorem scaleLog_nonpositive_min_fails_witness :
    (-5 : ℚ) ≤ 0 ∧
    ScaleLib.scaleLog (some (-5)) none none =
      .error (.logMinError (-5)) := by
  have h : (-5 : ℚ) ≤ 0 := by norm_num
  exact ⟨h, scaleLog_nonpositive_min_fails (-5) none none h⟩

/-- C9 counterexample: Scale.log with min = -5 and max = -10 has max ≤ min
but fails with the positive-min log error, not with the
"max must be greater than min" error the claim predicts for every
constructor given max ≤ min. -/
theorem scaleLog_minmax_precedence_counterexample :
    ScaleLib.scaleLog (some (-5)) (some (-10)) none =
      .error (.logMinError (-5)) ∧
    ScaleLib.scaleLog (some (-5)) (some (-10)) none ≠
      .error (.minMaxError (-5) (-10)) := by
  constructor
  · simp only [ScaleLib.scaleLog]
    rw [if_pos (by norm_num : (-5 : ℚ) ≤ 0)]
    rfl
  · simp only [ScaleLib.scaleLog]
    rw [if_pos (by norm_num : (-5 : ℚ) ≤ 0)]
    intro hEq
    simp [Except.bind] at hEq

/-- C9 (amended): every Scale constructor given both bounds with
max ≤ min fails and produces no Scale: linear, symlog and power fail with
the max-greater-than-min error, and log does too when its min is positive,
while for log with min ≤ 0 the positive-min domain error takes precedence;
with either bound absent the min/max check is skipped and construction can
succeed. -/
theorem scale_minmax_check (a b : ℚ) (tickFormat : Option String) (e : ℚ)
    (h : b ≤ a) :
    ScaleLib.scaleLinear (some a) (some b) tickFormat =
      .error (.minMaxError a b) ∧
    ScaleLib.scaleSymlog (some a) (some b) tickFormat =
      .error (.minMaxError a b) ∧
    ScaleLib.scalePower (some a) (some b) tickFormat e =
      .error (.minMaxError a b) ∧
    (0 < a →
      ScaleLib.scaleLog (some a) (some b) tickFormat =
        .error (.minMaxError a b)) ∧
    (a ≤ 0 →
      ScaleLib.scaleLog (some a) (some b) tickFormat =
        .error (.logMinError a)) ∧
    ScaleLib.scaleLinear (some a) none tickFormat =
      .ok ⟨.linear, some a, none, tickFormat, none⟩ ∧
    ScaleLib.scaleLinear none (some b) tickFormat =
      .ok ⟨.linear, none, some b, tickFormat, none⟩ := by
  have hcheck : ScaleLib.checkMinMax (some a) (some b) =
      .error (.minMaxError a b) := by
    simp only [ScaleLib.checkMinMax]
    rw [if_pos h]
  refine ⟨?_, ?_, ?_, ?_, ?_, ?_, ?_⟩
  · simp only [ScaleLib.scaleLinear, hcheck]; rfl
  · simp only [ScaleLib.scaleSymlog, hcheck]; rfl
  · simp only [ScaleLib.scalePower, hcheck]; rfl
  · intro ha
    simp only [ScaleLib.scaleLog]
    rw [if_neg (not_le.mpr ha)]
    simp only [hcheck]
    rfl
  · intro ha
    simp only [ScaleLib.scaleLog]
    rw [if_pos ha]
    rfl
  · simp only [ScaleLib.scaleLinear, ScaleLib.checkMinMax]; rfl
  · simp only [ScaleLib.scaleLinear, ScaleLib.checkMinMax]; rfl

/-- Witness for C9's amended theorem at min = 3, max = 1. -/
theorem scale_minmax_check_witness :
    (1 : ℚ) ≤ 3 ∧
    ScaleLib.scaleLinear (some 3) (some 1) none =
      .error (.minMaxError 3 1) ∧
    ScaleLib.scaleSymlog (some 3) (some 1) none =
      .error (.minMaxError 3 1) ∧
    ScaleLib.scalePower (some 3) (some 1) none (1/2) =
      .error (.minMaxError 3 1) ∧
    ScaleLib.scaleLog (some 3) (some 1) none =
      .error (.minMaxError 3 1) ∧
    ScaleLib.scaleLinear (some 3) none none =
      .ok ⟨.linear, some 3, none, none, none⟩ ∧
    ScaleLib.scaleLinear none (some 1) none =
      .ok ⟨.linear, none, some 1, none, none⟩ := by
  have h : (1 : ℚ) ≤ 3 := by norm_num
  have hc := scale_minmax_check 3 1 none (1/2) h
  exact ⟨h, hc.1, hc.2.1, hc.2.2.1, hc.2.2.2.1 (by norm_num),
    hc.2.2.2.2.2.1, hc.2.2.2.2.2.2⟩

/-- C10: for a source present in the project whose item holds no cached
result, getResult returns an Err result carrying the need-to-run error. -/
theorem getResult_need_to_run {V : Type} (p : ProjectResult.SqProject V)
    (sourceId : String) (item : ProjectResult.ProjectItem V)
    (hfind : ProjectResult.lookupItem p sourceId = some item)
    (hnone : item.result = none) :
    ProjectResult.getResult p sourceId =
      some (.error ProjectResult.SqError.needToRun) := by
  simp [ProjectResult.getResult, hfind, ProjectResult.getInternalResult,
    hnone, Except.map]

/-- Witness for C10 at a one-source project whose item was never run. -/
theorem getResult_need_to_run_witness :
    ProjectResult.lookupItem (V := Nat) ⟨[("main", ⟨none⟩)]⟩ "main" =
      some ⟨none⟩ ∧
    (⟨none⟩ : ProjectResult.ProjectItem Nat).result = none ∧
    ProjectResult.getResult (V := Nat) ⟨[("main", ⟨none⟩)]⟩ "main" =
      some (.error ProjectResult.SqError.needToRun) := by
  refine ⟨rfl, rfl, ?_⟩
  exact getResult_need_to_run ⟨[("main", ⟨none⟩)]⟩ "main" ⟨none⟩ rfl rfl

/-- C8: transforming value tags through omitUsingStringKeys fails with an
error whose message names the offending key whenever the key is not a
valid tag key, and succeeds for every valid key. -/
theorem valueTags_invalid_key {V : Type} (t : ValueTagsM.ValueTagsType V)
    (key : String) :
    (key ∉ ValueTagsM.valueTagsTypeNames →
      ValueTagsM.omitUsingStringKeys t [key] =
        .error (ValueTagsM.invalidTagKeyMessage key)) ∧
    (key ∈ ValueTagsM.valueTagsTypeNames →
      (ValueTagsM.omitUsingStringKeys t [key]).isOk = true) := by
  constructor
  · intro h
    simp only [ValueTagsM.valueTagsTypeNames, List.mem_cons,
      List.mem_singleton, not_or] at h
    obtain ⟨h1, h2, h3, h4, h5, h6, h7, h8, h9⟩ := h
    simp [ValueTagsM.omitUsingStringKeys, ValueTagsM.mergeMany,
      ValueTagsM.convertToValueTagsTypeName, h1, h2, h3, h4, h5, h6, h7,
      h8, h9, Except.bind, Except.map]
  · intro h
    simp [ValueTagsM.valueTagsTypeNames] at h
    rcases h with h | h | h | h | h | h | h | h | h <;> subst h <;> rfl

/-- Witness for C8 at the invalid key "badKey" and the valid key "name". -/
theorem valueTags_invalid_key_witness :
    ("badKey" ∉ ValueTagsM.valueTagsTypeNames ∧
      ValueTagsM.omitUsingStringKeys (V := Unit) {} ["badKey"] =
        .error (ValueTagsM.invalidTagKeyMessage "badKey")) ∧
    ("name" ∈ ValueTagsM.valueTagsTypeNames ∧
      (ValueTagsM.omitUsingStringKeys (V := Unit) {} ["name"]).isOk =
        true) := by
  have h1 : "badKey" ∉ ValueTagsM.valueTagsTypeNames := by decide
  have h2 : "name" ∈ ValueTagsM.valueTagsTypeNames := by decide
  exact ⟨⟨h1, (valueTags_invalid_key {} "badKey").1 h1⟩,
         ⟨h2, (valueTags_invalid_key {} "name").2 h2⟩⟩

theorem loadImports_cycle_exhausts_fuel (fuel : Nat) :
    ImportLoader.loadImportsRecursively ImportLoader.cycleGraph fuel 0 =
      .error .fuelExhausted ∧
    ImportLoader.loadImportsRecursively ImportLoader.cycleGraph fuel 1 =
      .error .fuelExhausted := by
  induction fuel with
  | zero => exact ⟨rfl, rfl⟩
  | succ n ih =>
    constructor
    · simp [ImportLoader.loadImportsRecursively, ImportLoader.goImports,
        ImportLoader.cycleGraph, ih.2, Except.bind]
    · simp [ImportLoader.loadImportsRecursively, ImportLoader.goImports,
        ImportLoader.cycleGraph, ih.1, Except.bind]

/-- C3: for the two-source import cycle (0 imports 1, 1 imports 0),
runWithImports exhausts every fuel bound instead of reporting the
cyclic-import error: each recursive call allocates a fresh visited set, so
the cycle check never fires and the original (unfueled) recursion never
terminates — the code hangs where the spec requires a cyclic-import
failure. -/
theorem runWithImports_cycle_diverges (fuel : Nat)
    (runPhase : Nat → Except ImportLoader.LoadError Unit) :
    ImportLoader.runWithImports ImportLoader.cycleGraph runPhase fuel 0 =
      .error .fuelExhausted ∧
    ImportLoader.runWithImports ImportLoader.cycleGraph runPhase fuel 1 =
      .error .fuelExhausted := by
  have h := loadImports_cycle_exhausts_fuel fuel
  constructor
  · simp [ImportLoader.runWithImports, h.1, Except.bind]
  · simp [ImportLoader.runWithImports, h.2, Except.bind]

theorem runList_untouched {α V E : Type} [DecidableEq α]
    (eval : α → Except E V) (x : α) :
    ∀ (ids : List α) (err : Option E) (s : ProjectRun.RunState α V E),
      x ∉ ids →
      (ProjectRun.runList eval ids err s).result x = s.result x ∧
      (ProjectRun.runList eval ids err s).evalCount x = s.evalCount x := by
  intro ids
  induction ids with
  | nil =>
    intro err s h
    exact ⟨rfl, rfl⟩
  | cons id rest ih =>
    intro err s h
    have hx : ¬(x = id) := fun hEq => h (hEq ▸ List.mem_cons_self id rest)
    have hrest : x ∉ rest := fun hm => h (List.mem_cons_of_mem id hm)
    cases hres : s.result id with
    | some cached =>
      cases cached with
      | error e =>
        simp only [ProjectRun.runList, hres]
        exact ih (some e) s hrest
      | ok v =>
        simp only [ProjectRun.runList, hres]
        exact ih err s hrest
    | none =>
      cases err with
      | some e =>
        simp only [ProjectRun.runList, hres]
        refine ⟨?_, ?_⟩
        · rw [(ih (some e) _ hrest).1]
          simp [ProjectRun.setResult, hx]
        · rw [(ih (some e) _ hrest).2]
          simp [ProjectRun.setResult]
      | none =>
        cases heval : eval id with
        | error e =>
          simp only [ProjectRun.runList, hres, heval]
          refine ⟨?_, ?_⟩
          · rw [(ih (some e) _ hrest).1]
            simp [ProjectRun.evalRun, hx]
          · rw [(ih (some e) _ hrest).2]
            simp [ProjectRun.evalRun, hx]
        | ok v =>
          simp only [ProjectRun.runList, hres, heval]
          refine ⟨?_, ?_⟩
          · rw [(ih none _ hrest).1]
            simp [ProjectRun.evalRun, hx]
          · rw [(ih none _ hrest).2]
            simp [ProjectRun.evalRun, hx]

theorem runList_preserves_cached {α V E : Type} [DecidableEq α]
    (eval : α → Except E V) (x : α) (r : Except E V) :
    ∀ (ids : List α) (err : Option E) (s : ProjectRun.RunState α V E),
      s.result x = some r →
      (ProjectRun.runList eval ids err s).result x = some r ∧
      (ProjectRun.runList eval ids err s).evalCount x = s.evalCount x := by
  intro ids
  induction ids with
  | nil =>
    intro err s h
    exact ⟨h, rfl⟩
  | cons id rest ih =>
    intro err s h
    cases hres : s.result id with
    | some cached =>
      cases cached with
      | error e =>
        simp only [ProjectRun.runList, hres]
        exact ih (some e) s h
      | ok v =>
        simp only [ProjectRun.runList, hres]
        exact ih err s h
    | none =>
      have hx : ¬(x = id) := fun hEq => by
        rw [hEq, hres] at h
        exact Option.noConfusion h
      cases err with
      | some e =>
        simp only [ProjectRun.runList, hres]
        have hkeep : (ProjectRun.setResult s id (Except.error e)).result x =
            some r := by
          simp only [ProjectRun.setResult]
          rw [if_neg hx]
          exact h
        refine ⟨(ih (some e) _ hkeep).1, ?_⟩
        rw [(ih (some e) _ hkeep).2]
        simp [ProjectRun.setResult]
      | none =>
        have hkeep : (ProjectRun.evalRun eval s id).result x = some r := by
          simp only [ProjectRun.evalRun]
          rw [if_neg hx]
          exact h
        cases heval : eval id with
        | error e =>
          simp only [ProjectRun.runList, hres, heval]
          refine ⟨(ih (some e) _ hkeep).1, ?_⟩
          rw [(ih (some e) _ hkeep).2]
          simp [ProjectRun.evalRun, hx]
        | ok v =>
          simp only [ProjectRun.runList, hres, heval]
          refine ⟨(ih none _ hkeep).1, ?_⟩
          rw [(ih none _ hkeep).2]
          simp [ProjectRun.evalRun, hx]

theorem runList_caches_all {α V E : Type} [DecidableEq α]
    (eval : α → Except E V) :
    ∀ (ids : List α) (err : Option E) (s : ProjectRun.RunState α V E)
      (x : α), x ∈ ids →
      ((ProjectRun.runList eval ids err s).result x).isSome = true := by
  intro ids
  induction ids with
  | nil =>
    intro err s x hx
    exact absurd hx (List.not_mem_nil x)
  | cons id rest ih =>
    intro err s x hx
    cases hres : s.result id with
    | some cached =>
      rcases List.mem_cons.mp hx with rfl | hxr
      · cases cached with
        | error e =>
          simp only [ProjectRun.runList, hres]
          rw [(runList_preserves_cached eval x _ rest (some e) s hres).1]
          rfl
        | ok v =>
          simp only [ProjectRun.runList, hres]
          rw [(runList_preserves_cached eval x _ rest err s hres).1]
          rfl
      · cases cached with
        | error e =>
          simp only [ProjectRun.runList, hres]
          exact ih (some e) s x hxr
        | ok v =>
          simp only [ProjectRun.runList, hres]
          exact ih err s x hxr
    | none =>
      cases err with
      | some e =>
        simp only [ProjectRun.runList, hres]
        rcases List.mem_cons.mp hx with rfl | hxr
        · have hs : (ProjectRun.setResult s x (Except.error e)).result x =
              some (Except.error e) := by
            simp [ProjectRun.setResult]
          rw [(runList_preserves_cached eval x _ rest (some e) _ hs).1]
          rfl
        · exact ih (some e) _ x hxr
      | none =>
        cases heval : eval id with
        | error e =>
          simp only [ProjectRun.runList, hres, heval]
          rcases List.mem_cons.mp hx with rfl | hxr
          · have hs : (ProjectRun.evalRun eval s x).result x =
                some (eval x) := by
              simp [ProjectRun.evalRun]
            rw [(runList_preserves_cached eval x _ rest (some e) _ hs).1]
            rfl
          · exact ih (some e) _ x hxr
        | ok v =>
          simp only [ProjectRun.runList, hres, heval]
          rcases List.mem_cons.mp hx with rfl | hxr
          · have hs : (ProjectRun.evalRun eval s x).result x =
                some (eval x) := by
              simp [ProjectRun.evalRun]
            rw [(runList_preserves_cached eval x _ rest none _ hs).1]
            rfl
          · exact ih none _ x hxr

theorem runList_all_cached_noop {α V E : Type} [DecidableEq α]
    (eval : α → Except E V) :
    ∀ (ids : List α) (err : Option E) (s : ProjectRun.RunState α V E),
      (∀ y ∈ ids, (s.result y).isSome = true) →
      ProjectRun.runList eval ids err s = s := by
  intro ids
  induction ids with
  | nil =>
    intro err s h
    rfl
  | cons id rest ih =>
    intro err s h
    have hid := h id (List.mem_cons_self id rest)
    have hrest : ∀ y ∈ rest, (s.result y).isSome = true :=
      fun y hy => h y (List.mem_cons_of_mem id hy)
    cases hres : s.result id with
    | none =>
      rw [hres] at hid
      exact absurd hid (by simp)
    | some cached =>
      cases cached with
      | error e =>
        simp only [ProjectRun.runList, hres]
        exact ih (some e) s hrest
      | ok v =>
        simp only [ProjectRun.runList, hres]
        exact ih err s hrest

theorem runList_eval_at_most_once {α V E : Type} [DecidableEq α]
    (eval : α → Except E V) (x : α) :
    ∀ (ids : List α) (err : Option E) (s : ProjectRun.RunState α V E),
      s.result x = none →
      (ProjectRun.runList eval ids err s).evalCount x ≤
        s.evalCount x + 1 := by
  intro ids
  induction ids with
  | nil =>
    intro err s h
    exact Nat.le_succ _
  | cons id rest ih =>
    intro err s h
    cases hres : s.result id with
    | some cached =>
      cases cached with
      | error e =>
        simp only [ProjectRun.runList, hres]
        exact ih (some e) s h
      | ok v =>
        simp only [ProjectRun.runList, hres]
        exact ih err s h
    | none =>
      by_cases hx : x = id
      · subst hx
        cases err with
        | some e =>
          simp only [ProjectRun.runList, hres]
          have hs : (ProjectRun.setResult s x (Except.error e)).result x =
              some (Except.error e) := by
            simp [ProjectRun.setResult]
          rw [(runList_preserves_cached eval x _ rest (some e) _ hs).2]
          exact Nat.le_succ _
        | none =>
          have hs : (ProjectRun.evalRun eval s x).result x =
              some (eval x) := by
            simp [ProjectRun.evalRun]
          cases heval : eval x with
          | error e =>
            simp only [ProjectRun.runList, hres, heval]
            rw [(runList_preserves_cached eval x _ rest (some e) _ hs).2]
            simp [ProjectRun.evalRun]
          | ok v =>
            simp only [ProjectRun.runList, hres, heval]
            rw [(runList_preserves_cached eval x _ rest none _ hs).2]
            simp [ProjectRun.evalRun]
      · cases err with
        | some e =>
          simp only [ProjectRun.runList, hres]
          apply ih
          simp only [ProjectRun.setResult]
          rw [if_neg hx]
          exact h
        | none =>
          have hkeep : (ProjectRun.evalRun eval s id).result x = none := by
            simp only [ProjectRun.evalRun]
            rw [if_neg hx]
            exact h
          have hcount : (ProjectRun.evalRun eval s id).evalCount x =
              s.evalCount x := by
            simp only [ProjectRun.evalRun]
            rw [if_neg hx]
          cases heval : eval id with
          | error e =>
            simp only [ProjectRun.runList, hres, heval]
            have := ih (some e) _ hkeep
            rw [hcount] at this
            exact this
          | ok v =>
            simp only [ProjectRun.runList, hres, heval]
            have := ih none _ hkeep
            rw [hcount] at this
            exact this

theorem runList_poisoned {α V E : Type} [DecidableEq α]
    (eval : α → Except E V) (e : E) :
    ∀ (ids : List α) (s : ProjectRun.RunState α V E),
      ids.Nodup →
      (∀ y ∈ ids, s.result y = none) →
      ∀ x ∈ ids,
        (ProjectRun.runList eval ids (some e) s).result x =
          some (.error e) ∧
        (ProjectRun.runList eval ids (some e) s).evalCount x =
          s.evalCount x := by
  intro ids
  induction ids with
  | nil =>
    intro s _ _ x hx
    exact absurd hx (List.not_mem_nil x)
  | cons id rest ih =>
    intro s hnd hfresh x hx
    have hid : s.result id = none := hfresh id (List.mem_cons_self id rest)
    have hidr : id ∉ rest := (List.nodup_cons.mp hnd).1
    have hndr : rest.Nodup := (List.nodup_cons.mp hnd).2
    simp only [ProjectRun.runList, hid]
    have hfresh2 : ∀ y ∈ rest,
        (ProjectRun.setResult s id (Except.error e)).result y = none := by
      intro y hy
      have hyid : ¬(y = id) := fun hEq => hidr (hEq ▸ hy)
      simp only [ProjectRun.setResult]
      rw [if_neg hyid]
      exact hfresh y (List.mem_cons_of_mem id hy)
    rcases List.mem_cons.mp hx with rfl | hxr
    · have hsx : (ProjectRun.setResult s x (Except.error e)).result x =
          some (Except.error e) := by
        simp [ProjectRun.setResult]
      have hp := runList_preserves_cached eval x (Except.error e) rest
        (some e) _ hsx
      refine ⟨hp.1, ?_⟩
      rw [hp.2]
      simp [ProjectRun.setResult]
    · have hres := ih _ hndr hfresh2 x hxr
      refine ⟨hres.1, ?_⟩
      rw [hres.2]
      simp [ProjectRun.setResult]

/-- C4: running a source a second time with no intervening invalidation
changes nothing. After run(sourceId), every item in its run order holds a
cached result, so the second run(sourceId) finds each cached result, never
re-evaluates any item, and returns the identical project state — in
particular every cached result, and hence getResult, is unchanged.
Moreover a run starting from a fresh project evaluates each source at most
once. -/
theorem runSource_twice_no_reeval {α V E : Type} [DecidableEq α]
    (eval : α → Except E V) (runOrderFor : α → List α) (sourceId : α)
    (s : ProjectRun.RunState α V E) :
    ProjectRun.runSource eval runOrderFor sourceId
        (ProjectRun.runSource eval runOrderFor sourceId s) =
      ProjectRun.runSource eval runOrderFor sourceId s ∧
    ∀ x, (ProjectRun.runSource eval runOrderFor sourceId
        (ProjectRun.freshState α V E)).evalCount x ≤ 1 := by
  constructor
  · apply runList_all_cached_noop
    intro y hy
    exact runList_caches_all eval (runOrderFor sourceId) none s y hy
  · intro x
    exact runList_eval_at_most_once eval x (runOrderFor sourceId) none
      (ProjectRun.freshState α V E) rfl

/-- C5 counterexample: in the three-source project where source 2 depends
on both source 0 and source 1 while 0 and 1 are independent of each other
(run order for 2 is [0,1,2]) and only source 0 fails, source 1 — none of
whose dependencies failed — is not evaluated at all (its evaluation
counter stays 0) and is short-circuited with source 0's propagated error,
so a failure is propagated beyond the failing source's dependents and an
item with no failed dependency is not evaluated normally. -/
theorem runIds_poisons_independent_source :
    ProjectRun.cDeps 1 = [] ∧
    (ProjectRun.runSource ProjectRun.cEval ProjectRun.cRunOrder 2
        (ProjectRun.freshState Nat Nat String)).evalCount 1 = 0 ∧
    (ProjectRun.runSource ProjectRun.cEval ProjectRun.cRunOrder 2
        (ProjectRun.freshState Nat Nat String)).result 1 =
      some (.error "boom") := by
  refine ⟨rfl, ?_, ?_⟩ <;> rfl

/-- C5 (amended): when runIds processes a run-order list of uncached
items, an item is short-circuited — never evaluated, its counter
unchanged — exactly when some item earlier in the run-order list failed,
whether or not that item is one of its dependencies: if every earlier
item evaluates successfully the item is evaluated normally and caches its
own outcome, and if some earlier item fails then the item caches the
propagated error of the first failure in the list. -/
theorem runIds_first_failure_poisons {α V E : Type} [DecidableEq α]
    (eval : α → Except E V) (pre : List α) (x : α) (post : List α)
    (s : ProjectRun.RunState α V E)
    (hnd : (pre ++ x :: post).Nodup)
    (hfresh : ∀ y ∈ pre ++ x :: post, s.result y = none) :
    ((∀ y ∈ pre, (eval y).isOk = true) →
      (ProjectRun.runList eval (pre ++ x :: post) none s).result x =
        some (eval x) ∧
      (ProjectRun.runList eval (pre ++ x :: post) none s).evalCount x =
        s.evalCount x + 1) ∧
    (∀ (pre1 : List α) (f : α) (pre2 : List α) (e : E),
      pre = pre1 ++ f :: pre2 →
      (∀ y ∈ pre1, (eval y).isOk = true) →
      eval f = .error e →
      (ProjectRun.runList eval (pre ++ x :: post) none s).result x =
        some (.error e) ∧
      (ProjectRun.runList eval (pre ++ x :: post) none s).evalCount x =
        s.evalCount x) := by
  induction pre generalizing s with
  | nil =>
    constructor
    · intro _
      have hx : s.result x = none := hfresh x (by simp)
      simp only [List.nil_append] at hnd ⊢
      have hs1 : (ProjectRun.evalRun eval s x).result x = some (eval x) := by
        simp [ProjectRun.evalRun]
      have hc1 : (ProjectRun.evalRun eval s x).evalCount x =
          s.evalCount x + 1 := by
        simp [ProjectRun.evalRun]
      cases heval : eval x with
      | error e =>
        simp only [ProjectRun.runList, hx, heval]
        have hp := runList_preserves_cached eval x (eval x) post (some e)
          (ProjectRun.evalRun eval s x) hs1
        rw [heval] at hp
        exact ⟨hp.1, by rw [hp.2, hc1]⟩
      | ok v =>
        simp only [ProjectRun.runList, hx, heval]
        have hp := runList_preserves_cached eval x (eval x) post none
          (ProjectRun.evalRun eval s x) hs1
        rw [heval] at hp
        exact ⟨hp.1, by rw [hp.2, hc1]⟩
    · intro pre1 f pre2 e hdec _ _
      exact absurd hdec (by cases pre1 <;> simp)
  | cons p pre' ih =>
    simp only [List.cons_append] at hnd hfresh ⊢
    have hp_none : s.result p = none := hfresh p (List.mem_cons_self p _)
    have hpnotin : p ∉ pre' ++ x :: post := (List.nodup_cons.mp hnd).1
    have hnd' : (pre' ++ x :: post).Nodup := (List.nodup_cons.mp hnd).2
    have hxp : ¬(x = p) := fun hEq =>
      hpnotin (hEq ▸ (by simp : x ∈ pre' ++ x :: post))
    have hfresh1 : ∀ y ∈ pre' ++ x :: post,
        (ProjectRun.evalRun eval s p).result y = none := by
      intro y hy
      have hyp : ¬(y = p) := fun hEq => hpnotin (hEq ▸ hy)
      simp only [ProjectRun.evalRun]
      rw [if_neg hyp]
      exact hfresh y (List.mem_cons_of_mem p hy)
    have hcx : (ProjectRun.evalRun eval s p).evalCount x = s.evalCount x := by
      simp only [ProjectRun.evalRun]
      rw [if_neg hxp]
    cases heval : eval p with
    | ok v =>
      have hstep : ProjectRun.runList eval (p :: (pre' ++ x :: post)) none s =
          ProjectRun.runList eval (pre' ++ x :: post) none
            (ProjectRun.evalRun eval s p) := by
        simp only [ProjectRun.runList, hp_none, heval]
      have ihh := ih (ProjectRun.evalRun eval s p) hnd' hfresh1
      constructor
      · intro hok
        have h1 := ihh.1 fun y hy => hok y (List.mem_cons_of_mem p hy)
        rw [hstep]
        exact ⟨h1.1, by rw [h1.2, hcx]⟩
      · intro pre1 f pre2 e hdec hok hf
        cases pre1 with
        | nil =>
          simp only [List.nil_append, List.cons.injEq] at hdec
          obtain ⟨rfl, rfl⟩ := hdec
          rw [heval] at hf
          exact Except.noConfusion hf
        | cons q pre1' =>
          simp only [List.cons_append, List.cons.injEq] at hdec
          obtain ⟨rfl, hpre'⟩ := hdec
          have h2 := ihh.2 pre1' f pre2 e hpre'
            (fun y hy => hok y (List.mem_cons_of_mem _ hy)) hf
          rw [hstep]
          exact ⟨h2.1, by rw [h2.2, hcx]⟩
    | error e0 =>
      have hstep : ProjectRun.runList eval (p :: (pre' ++ x :: post)) none s =
          ProjectRun.runList eval (pre' ++ x :: post) (some e0)
            (ProjectRun.evalRun eval s p) := by
        simp only [ProjectRun.runList, hp_none, heval]
      constructor
      · intro hok
        have := hok p (List.mem_cons_self p pre')
        rw [heval] at this
        simp [Except.isOk, Except.toBool] at this
      · intro pre1 f pre2 e hdec hok hf
        cases pre1 with
        | nil =>
          simp only [List.nil_append, List.cons.injEq] at hdec
          obtain ⟨rfl, rfl⟩ := hdec
          rw [heval] at hf
          have he : e0 = e := Except.error.inj hf
          subst he
          rw [hstep]
          have hx_mem : x ∈ pre' ++ x :: post := by simp
          have hp2 := runList_poisoned eval e0 (pre' ++ x :: post)
            (ProjectRun.evalRun eval s p) hnd' hfresh1 x hx_mem
          exact ⟨hp2.1, by rw [hp2.2, hcx]⟩
        | cons q pre1' =>
          simp only [List.cons_append, List.cons.injEq] at hdec
          obtain ⟨rfl, _⟩ := hdec
          have hq := hok p (List.mem_cons_self p pre1')
          rw [heval] at hq
          simp [Except.isOk, Except.toBool] at hq

/-- Witness for C5's amended theorem at the concrete three-source run
order [0, 1, 2] with source 0 failing: source 1 is short-circuited with
the propagated error and its evaluation counter stays at its fresh
value. -/
theorem runIds_first_failure_poisons_witness :
    (ProjectRun.runList ProjectRun.cEval ([0] ++ 1 :: [2]) none
        (ProjectRun.freshState Nat Nat String)).result 1 =
      some (.error "boom") ∧
    (ProjectRun.runList ProjectRun.cEval ([0] ++ 1 :: [2]) none
        (ProjectRun.freshState Nat Nat String)).evalCount 1 =
      (ProjectRun.freshState Nat Nat String).evalCount 1 := by
  have hnd : (([0] ++ 1 :: [2]) : List Nat).Nodup := by decide
  have hfresh : ∀ y ∈ (([0] ++ 1 :: [2]) : List Nat),
      (ProjectRun.freshState Nat Nat String).result y = none :=
    fun y hy => rfl
  exact (runIds_first_failure_poisons ProjectRun.cEval [0] 1 [2]
    (ProjectRun.freshState Nat Nat String) hnd hfresh).2 [] 0 [] "boom" rfl
    (fun y hy => absurd hy (List.not_mem_nil y)) rfl
